import Mathlib

/-!
Verification of the WaveNet vocoder generation engine
(`wavenet_vocoder/__init__.py` plus the hyper-parameter table `hparams.py`).

The numeric scalar type is an abstract linearly ordered commutative ring `α`
(instantiated at `ℤ` for concrete evaluations).  The transcendental
ingredients of the source (`tanh`, `sigmoid`, `math.sqrt(0.5)`,
`F.softmax`) are opaque parameters collected in `Params`: every theorem
below holds for an arbitrary choice, so in particular for the real-valued
functions of the source.  Tensors with batch dimension 1 are modelled as
time-major lists of frames (`List (Frame α)`); a frame is a list of
channel values.

The residual-block modules `Conv1d1x1` and `Conv1dGLU` are imported by
`__init__.py` from `wavenet_vocoder.modules`, a file that is not part of
the source excerpt; their behaviour is modelled from the specification
(sections 4.1 and 4.2) and each such definition carries a
`Modelled from the spec:` doc comment.  Everything else is translated
from `wavenet_vocoder/__init__.py`.
-/

namespace WN

variable {α : Type} [LinearOrderedCommRing α]

/-- A single time step of channel values (one column of a B×C×T tensor,
with B = 1). -/
abbrev Frame (α : Type) := List α

/-- History buffer of a convolution cell: the retained past input frames,
oldest first. -/
abbrev Buf (α : Type) := List (Frame α)

/-- Elementwise sum of two frames (tensor addition). -/
def addV (a b : Frame α) : Frame α := List.zipWith (· + ·) a b

/-- Dot product of two channel vectors. -/
def dotV (a b : List α) : α := (List.zipWith (· * ·) a b).sum

/-- Matrix–vector product: a 1×1 convolution applied to one frame. -/
def mvMul (M : List (List α)) (v : Frame α) : Frame α := M.map (fun r => dotV r v)

/-- Multiply every channel of a frame by a constant. -/
def smulV (c : α) (v : Frame α) : Frame α := v.map (fun a => c * a)

/-- The all-zero frame of a given channel width. -/
def zeroF (n : ℕ) : Frame α := List.replicate n 0

/-- One-hot frame of width `n` with the 1 at index `i`. -/
def oneHot (n i : ℕ) : Frame α := (List.range n).map (fun j => if j = i then 1 else 0)

/-- Opaque numeric parameters of the model: the gating nonlinearities, the
skip-scaling constant (`math.sqrt(0.5)` in the source) and the softmax
normalisation (`F.softmax` over the channel dimension in the source). -/
structure Params (α : Type) where
  tanh : α → α
  sigmoid : α → α
  sqrtHalf : α
  softmaxF : Frame α → Frame α

/-- Modelled from the spec: section 4.1, the causal dilated convolution
cell underlying `Conv1d1x1` and the cell inside `Conv1dGLU`
(`wavenet_vocoder.modules`, absent from the source excerpt).  `kernel` is
the list of tap matrices, ordered from the oldest tap to the tap reading
the current frame; `bias` is added to every output frame; `inC` is the
input channel width used for zero padding; `dilation` is the stride
between taps. -/
structure ConvCell (α : Type) where
  kernel : List (List (List α))
  bias : List α
  inC : ℕ
  dilation : ℕ
deriving DecidableEq

/-- Number of past frames the cell must retain:
`(kernel_size - 1) * dilation`. -/
def histLen (cell : ConvCell α) : ℕ := (cell.kernel.length - 1) * cell.dilation

/-- Modelled from the spec: the cleared (zero-filled) history buffer the
cell holds at the start of a generation run. -/
def initBuf (cell : ConvCell α) : Buf α :=
  List.replicate (histLen cell) (zeroF cell.inC)

/-- Modelled from the spec: apply the cell's weights to one window of
`histLen + 1` consecutive frames (oldest first); tap `k` reads the frame
`(kernel_size - 1 - k) * dilation` steps in the past.  Shared verbatim by
the bulk and the incremental mode. -/
def cellApply (cell : ConvCell α) (window : Buf α) : Frame α :=
  (List.range cell.kernel.length).foldl
    (fun acc k =>
      addV acc (mvMul (cell.kernel.getD k []) (window.getD (k * cell.dilation) (zeroF cell.inC))))
    cell.bias

/-- Modelled from the spec: `apply_step`.  The newest frame is pushed onto
the history buffer, the kernel is applied to the resulting window, and the
oldest retained frame is dropped. -/
def stepCell (cell : ConvCell α) (buf : Buf α) (x : Frame α) : Frame α × Buf α :=
  (cellApply cell (buf ++ [x]), (buf ++ [x]).drop 1)

/-- Buffer evolution of `stepCell`, separated out because it does not
depend on the cell weights. -/
def pushBuf (buf : Buf α) (x : Frame α) : Buf α := (buf ++ [x]).drop 1

/-- Modelled from the spec: `apply_bulk`, the causal dilated convolution
over a whole sequence; output `t` applies the kernel to the window ending
at input `t`, with zero left-padding. -/
def bulkCell (cell : ConvCell α) (xs : List (Frame α)) : List (Frame α) :=
  (List.range xs.length).map
    (fun t => cellApply cell (((initBuf cell ++ xs).drop t).take (histLen cell + 1)))

/-- Iterate `stepCell` over a sequence, threading the history buffer. -/
def runCell (cell : ConvCell α) : Buf α → List (Frame α) → List (Frame α)
  | _, [] => []
  | buf, x :: xs =>
    (stepCell cell buf x).1 :: runCell cell (stepCell cell buf x).2 xs

/-- Modelled from the spec: section 4.2, the data of one `Conv1dGLU`
residual block (`wavenet_vocoder.modules`, absent from the source
excerpt): the dilated cell, the optional 1×1 projections of the local and
global conditioning added to the pre-activation, and the two 1×1 output
projections producing the residual and the skip branch. -/
structure Conv1dGLU (α : Type) where
  cell : ConvCell α
  condLocalW : Option (List (List α))
  condGlobalW : Option (List (List α))
  resW : List (List α)
  skipW : List (List α)
deriving DecidableEq

/-- Slice one time step out of an optional conditioning sequence, as in
`ct = None if c is None else c[:, t, :]` of `incremental_forward`. -/
def condAt (c : Option (List (Frame α))) (t : ℕ) : Option (Frame α) :=
  c.map (fun cs => cs.getD t [])

/-- A single network input: the signal frame together with the local and
global conditioning frames of that time step. -/
abbrev StepIn (α : Type) := Frame α × Option (Frame α) × Option (Frame α)

/-- Pair every frame of a sequence with the conditioning of its (absolute)
time step, starting at step `t`. -/
def attach (c g : Option (List (Frame α))) : ℕ → List (Frame α) → List (StepIn α)
  | _, [] => []
  | t, x :: xs => (x, condAt c t, condAt g t) :: attach c g (t + 1) xs

/-- Translation of `_expand_global_features`: broadcast the per-utterance
global conditioning vector to every one of the `T` time steps. -/
def expandG (g : Option (Frame α)) (T : ℕ) : Option (List (Frame α)) :=
  g.map (List.replicate T)

/-- Modelled from the spec: add the optional 1×1 conditioning projection
to the pre-activation frame. -/
def addCond (W : Option (List (List α))) (cf : Option (Frame α)) (pre : Frame α) : Frame α :=
  match W, cf with
  | some M, some v => addV pre (mvMul M v)
  | _, _ => pre

/-- Modelled from the spec: the gated activation unit — split the
pre-activation in half along channels and combine the halves with
`tanh(filter) * sigmoid(gate)`. -/
def gatedOut (p : Params α) (pre : Frame α) : Frame α :=
  List.zipWith (fun a b => p.tanh a * p.sigmoid b)
    (pre.take (pre.length / 2)) (pre.drop (pre.length / 2))

/-- Modelled from the spec: the per-time-step part of a `Conv1dGLU` block
shared verbatim by both modes: conditioning injection, gating, and the
residual (added back onto the input frame) and skip projections. -/
def bPointwise (p : Params α) (blk : Conv1dGLU α) (x y : Frame α)
    (ct gt : Option (Frame α)) : Frame α × Frame α :=
  let pre := addCond blk.condGlobalW gt (addCond blk.condLocalW ct y)
  let z := gatedOut p pre
  (addV x (mvMul blk.resW z), mvMul blk.skipW z)

/-- Modelled from the spec: `forward_step` of a residual block — one
`apply_step` of the inner cell followed by the pointwise part; returns
the (residual, skip) pair and the updated buffer. -/
def blockStep (p : Params α) (blk : Conv1dGLU α) (buf : Buf α) (i : StepIn α) :
    (Frame α × Frame α) × Buf α :=
  ((bPointwise p blk i.1 ((stepCell blk.cell buf i.1).1) i.2.1 i.2.2),
    (stepCell blk.cell buf i.1).2)

/-- Modelled from the spec: `forward_bulk` of a residual block — the bulk
cell over the whole sequence followed by the pointwise part at every time
step. -/
def blockBulk (p : Params α) (blk : Conv1dGLU α) (ins : List (StepIn α)) :
    List (Frame α × Frame α) :=
  List.zipWith (fun (i : StepIn α) y => bPointwise p blk i.1 y i.2.1 i.2.2)
    ins (bulkCell blk.cell (ins.map (fun i => i.1)))

/-- Iterate `blockStep` over a sequence, threading the block's buffer. -/
def runBlock (p : Params α) (blk : Conv1dGLU α) : Buf α → List (StepIn α) →
    List (Frame α × Frame α)
  | _, [] => []
  | buf, i :: ins =>
    (blockStep p blk buf i).1 :: runBlock p blk (blockStep p blk buf i).2 ins

/-- Translation of the residual-block loop inside one time step of
`incremental_forward` (lines 166–170): thread the running frame through
every block, accumulate the skip outputs with
`skips = h if skips is None else (skips + h) * sqrt(0.5)`, and collect the
updated buffers. -/
def pipeStep (p : Params α) : List (Conv1dGLU α) → List (Buf α) → Frame α →
    (Option (Frame α) × Option (Frame α)) → Option (Frame α) →
    (Frame α × Option (Frame α)) × List (Buf α)
  | [], bufs, x, _, acc => ((x, acc), bufs)
  | f :: fs, bufs, x, cg, acc =>
    let r := blockStep p f (bufs.headD []) (x, cg.1, cg.2)
    let acc' : Option (Frame α) := some (match acc with
      | none => r.1.2
      | some s => smulV p.sqrtHalf (addV s r.1.2))
    ((pipeStep p fs bufs.tail r.1.1 cg acc').1,
      r.2 :: (pipeStep p fs bufs.tail r.1.1 cg acc').2)

/-- Time-iterated residual-block pipeline: run `pipeStep` once per input,
threading all block buffers; the per-step skip accumulator restarts from
the given list entry (`none` at every step in the source). -/
def pipeRunAcc (p : Params α) (blocks : List (Conv1dGLU α)) :
    List (Buf α) → List (StepIn α) → List (Option (Frame α)) →
    List (Frame α × Option (Frame α)) × List (Buf α)
  | bufs, [], _ => ([], bufs)
  | bufs, i :: ins, accs =>
    let r := pipeStep p blocks bufs i.1 (i.2.1, i.2.2) (accs.headD none)
    (r.1 :: (pipeRunAcc p blocks r.2 ins accs.tail).1,
      (pipeRunAcc p blocks r.2 ins accs.tail).2)

/-- Translation of the residual-block loop of the bulk `forward`
(lines 84–89): fold the blocks over the whole sequence, threading the
running signal sequence and the accumulated skip sequence
(`skips = h if skips is None else (skips + h) * math.sqrt(0.5)`). -/
def layersBulk (p : Params α) (blocks : List (Conv1dGLU α))
    (c g : Option (List (Frame α)))
    (start : List (Frame α) × Option (List (Frame α))) :
    List (Frame α) × Option (List (Frame α)) :=
  blocks.foldl
    (fun st f =>
      let rs := blockBulk p f (attach c g 0 st.1)
      (rs.map (fun r => r.1),
        some (match st.2 with
          | none => rs.map (fun r => r.2)
          | some s => List.zipWith (fun a h => smulV p.sqrtHalf (addV a h))
              s (rs.map (fun r => r.2)))))
    start

/-- One output-head layer of `last_conv_layers`: either a stateless
`nn.ReLU` or a `Conv1d1x1` projection (weight matrix and bias). -/
inductive HeadLayer (α : Type) where
  | relu : HeadLayer α
  | conv1x1 (W : List (List α)) (b : List α) : HeadLayer α
deriving DecidableEq

/-- The `ConvCell` of a `Conv1d1x1` module: kernel size 1, dilation 1,
empty history buffer. -/
def conv1x1Cell (W : List (List α)) (b : List α) : ConvCell α :=
  ⟨[W], b, (W.headD []).length, 1⟩

/-- Ordinary (bulk-mode) call of a head layer on a single frame, as used
by the `except AttributeError` fallback `x = f(x)`. -/
def headPlainApply : HeadLayer α → Frame α → Frame α
  | .relu, x => x.map (fun a => max a 0)
  | .conv1x1 W b, x => addV b (mvMul W x)

/-- Step-mode logic of a head layer, when the layer provides one:
`Conv1d1x1.incremental_forward` is its kernel-size-1 cell applied with an
empty buffer; `nn.ReLU` has no `incremental_forward` method (the source
gets an `AttributeError`), hence `none`. -/
def headStepOpt : HeadLayer α → Frame α → Option (Frame α)
  | .relu, _ => none
  | .conv1x1 W b, x => some (stepCell (conv1x1Cell W b) [] x).1

/-- Whether a head layer provides step-mode logic (an
`incremental_forward` method). -/
def hasStepLogic : HeadLayer α → Bool
  | .relu => false
  | .conv1x1 _ _ => true

/-- Translation of the head dispatch of `incremental_forward`
(lines 172–176): `try: x = f.incremental_forward(x) except AttributeError:
x = f(x)`. -/
def headIncApply (f : HeadLayer α) (x : Frame α) : Frame α :=
  match headStepOpt f x with
  | some y => y
  | none => headPlainApply f x

/-- Bulk application of a head layer to a whole sequence, as in the
`for f in self.last_conv_layers: x = f(x)` loop of `forward`. -/
def headBulk : HeadLayer α → List (Frame α) → List (Frame α)
  | .relu, xs => xs.map (fun v => v.map (fun a => max a 0))
  | .conv1x1 W b, xs => xs.map (fun v => addV b (mvMul W v))

/-- The `WaveNet` module: label count, the kernel-size-1 input projection
`first_conv`, the residual blocks `conv_layers`, and the output head
`last_conv_layers` (`[ReLU, Conv1d1x1(C, C), ReLU, Conv1d1x1(C, labels)]`
in `__init__`, kept general here). -/
structure WaveNet (α : Type) where
  labels : ℕ
  first_conv : ConvCell α
  conv_layers : List (Conv1dGLU α)
  last_conv_layers : List (HeadLayer α)
deriving DecidableEq

/-- The mutable per-layer history buffers a `WaveNet` instance holds
between incremental steps. -/
structure NetState (α : Type) where
  firstBuf : Buf α
  blockBufs : List (Buf α)
deriving DecidableEq

/-- Translation of `clear_buffer`: every cell's buffer is reset to its
zero-filled initial state (head layers hold no buffer: `Conv1d1x1` has
kernel size 1 and `nn.ReLU` ignores `clear_buffer` via the
`except AttributeError` branch). -/
def clearedState (net : WaveNet α) : NetState α :=
  ⟨initBuf net.first_conv, net.conv_layers.map (fun b => initBuf b.cell)⟩

/-- Translation of `forward` (lines 68–97): expand the global
conditioning, run `first_conv`, fold the residual blocks while
accumulating skips, take the skip sum as the signal, apply the output
head, and optionally the softmax over channels. -/
def forward (p : Params α) (net : WaveNet α) (xs : List (Frame α))
    (c : Option (List (Frame α))) (g : Option (Frame α)) (softmax : Bool) :
    List (Frame α) :=
  let g_bct := expandG g xs.length
  let st := layersBulk p net.conv_layers c g_bct (bulkCell net.first_conv xs, none)
  let x2 := st.2.getD []
  let x3 := net.last_conv_layers.foldl (fun acc f => headBulk f acc) x2
  if softmax then x3.map p.softmaxF else x3

/-- Failure modes of `incremental_forward`.  `missingSteps` is the crash
at `range(None)` when neither `T` nor `test_inputs` is given;
`seedIndexOutOfRange` is the `IndexError` of `initial_input[:, :, 127] = 1`
when `labels <= 127`; `invalidDistribution` is the `np.random.choice`
rejection of a `p` that is not a distribution of size `labels`. -/
inductive GenErr where
  | missingSteps : GenErr
  | seedIndexOutOfRange : GenErr
  | invalidDistribution : GenErr
deriving DecidableEq

/-- Translation of the step-count resolution of `incremental_forward`
(lines 127–134): with teacher-forcing inputs, `T` defaults to their
length and is otherwise raised to it; without them `T` is used as given
(`none` means the call cannot run). -/
def resolveT (TOpt : Option ℕ) (test : Option (List (Frame α))) : Option ℕ :=
  match test with
  | some xs => some (match TOpt with
      | none => xs.length
      | some t => max t xs.length)
  | none => TOpt

/-- Index-swapping transpose of the `B = 1` slice of a `d1 × d2` tensor,
modelling `tensor.transpose(1, 2)`; the column count is read off the
first row. -/
def tpose (M : List (List α)) : List (List α) :=
  (List.range (M.headD []).length).map (fun j => M.map (fun r => r.getD j 0))

/-- Translation of the seed-frame resolution of `incremental_forward`
(lines 143–151).  With no initial input, the source builds
`zeros(B, 1, labels)` and sets index 127 to one (an `IndexError` when
`labels <= 127`).  A supplied initial input of shape `labels × 1`
(channel-major, detected by `initial_input.size(1) == self.labels`) is
transposed to the single-step time-major layout; the frame is its single
row. -/
def resolveInitial (labels : ℕ) (initial_input : Option (List (List α))) :
    Except GenErr (Frame α) :=
  match initial_input with
  | none =>
    if 127 < labels then .ok (oneHot labels 127) else .error .seedIndexOutOfRange
  | some M =>
    .ok ((if M.length = labels then tpose M else M).headD [])

/-- Translation of the input override at the top of the generation loop
(lines 153–159): a teacher-forcing frame covering step `t` replaces the
autoregressive input. -/
def overrideInput (test : Option (List (Frame α))) (t : ℕ) (fallback : Frame α) :
    Frame α :=
  match test with
  | some xs => if t < xs.length then xs.getD t fallback else fallback
  | none => fallback

/-- Translation of one full network evaluation inside the generation loop
(lines 161–178): `first_conv.incremental_forward`, the residual-block
pipeline with skip accumulation, the output head, and the optional
softmax of the flattened frame. -/
def netStepBody (p : Params α) (net : WaveNet α) (st : NetState α)
    (cur : Frame α) (ct gt : Option (Frame α)) (softmax : Bool) :
    Frame α × NetState α :=
  let fc := stepCell net.first_conv st.firstBuf cur
  let pr := pipeStep p net.conv_layers st.blockBufs fc.1 (ct, gt) none
  let x2 := pr.1.2.getD []
  let x3 := net.last_conv_layers.foldl (fun acc f => headIncApply f acc) x2
  (if softmax then p.softmaxF x3 else x3, ⟨fc.2, pr.2⟩)

/-- Iterated `netStepBody` over a fixed list of inputs (the incremental
network run used to state the step/bulk equivalence). -/
def netRun (p : Params α) (net : WaveNet α) (softmax : Bool) :
    NetState α → List (StepIn α) → List (Frame α)
  | _, [] => []
  | st, i :: ins =>
    (netStepBody p net st i.1 i.2.1 i.2.2 softmax).1 ::
      netRun p net softmax (netStepBody p net st i.1 i.2.1 i.2.2 softmax).2 ins

/-- Translation of the quantization branch (lines 179–183):
`np.random.choice(arange(labels), p=x)` draws one category — it requires
`x` to be a probability vector of size `labels` and otherwise raises —
and the frame is re-encoded one-hot (`x.zero_(); x[:, sample] = 1`).  The
randomness source is the injected `rng`, consulted once per quantized
step; the drawn category is modelled as `rng t % labels`. -/
def quantizeStep (quantize : Bool) (rng : ℕ → ℕ) (labels : ℕ) (t : ℕ)
    (x : Frame α) : Except GenErr (Frame α) :=
  if quantize then
    if x.length = labels ∧ x.sum = 1 then .ok (oneHot labels (rng t % labels))
    else .error .invalidDistribution
  else .ok x

/-- Translation of the generation loop `for t in tqdm(range(T))`
(lines 152–184), threading the current input, the buffer state and the
step index; returns the trace of (input used, output frame) pairs, or the
error that escaped, together with the buffer state at exit. -/
def genLoop (p : Params α) (net : WaveNet α) (c g_btc : Option (List (Frame α)))
    (test : Option (List (Frame α))) (softmax quantize : Bool) (rng : ℕ → ℕ) :
    List ℕ → Frame α → NetState α →
    Except GenErr (List (Frame α × Frame α)) × NetState α
  | [], _, st => (.ok [], st)
  | t :: ts, cur, st =>
    let actual := overrideInput test t cur
    let r := netStepBody p net st actual (condAt c t) (condAt g_btc t) softmax
    match quantizeStep quantize rng net.labels t r.1 with
    | .error e => (.error e, r.2)
    | .ok out =>
      match genLoop p net c g_btc test softmax quantize rng ts out r.2 with
      | (.ok tr, st2) => (.ok ((actual, out) :: tr), st2)
      | (.error e, st2) => (.error e, st2)

/-- Translation of `incremental_forward` (lines 99–190).  The instance's
buffer state is explicit: the incoming state `st0` is discarded by the
entry `self.clear_buffer()`; the returned state is the buffer state at
exit — re-cleared on the success path by the trailing
`self.clear_buffer()`, but left as-is when an exception escapes the loop
(the source has no try/finally).  Batch size is 1 (the value model;
`incrementalPlan` below covers the batch/shape bookkeeping), and the
conditioning and teacher-forcing sequences are taken in the time-major
layout the source converts to. -/
def incremental_forward (p : Params α) (net : WaveNet α) (st0 : NetState α)
    (initial_input : Option (List (List α))) (c : Option (List (Frame α)))
    (g : Option (Frame α)) (TOpt : Option ℕ)
    (test_inputs : Option (List (Frame α))) (softmax quantize : Bool)
    (rng : ℕ → ℕ) : Except GenErr (List (Frame α)) × NetState α :=
  let _ := st0
  let stC := clearedState net
  match resolveT TOpt test_inputs with
  | none => (.error .missingSteps, stC)
  | some T =>
    let g_btc := expandG g T
    match resolveInitial net.labels initial_input with
    | .error e => (.error e, stC)
    | .ok init =>
      match genLoop p net c g_btc test_inputs softmax quantize rng
          (List.range T) init stC with
      | (.ok tr, _) => (.ok (tr.map (fun r => r.2)), clearedState net)
      | (.error e, stE) => (.error e, stE)

/-- Translation of the dilation assignment of `WaveNet.__init__`
(lines 47–57): `assert layers % stacks == 0` (with `stacks = 0` the
Python `%` itself raises), then per stack the dilations
`2 ** layer` for `layer in range(layers // stacks)`, blocks in
construction order. -/
def wavenetDilations (layers nstacks : ℕ) : Option (List ℕ) :=
  if nstacks ≠ 0 ∧ layers % nstacks = 0 then
    some (List.flatten ((List.range nstacks).map
      (fun _ => (List.range (layers / nstacks)).map (fun layer => 2 ^ layer))))
  else none

/-- Shape-level record of the batch bookkeeping of `incremental_forward`. -/
structure IncPlan where
  B : ℕ
  steps : Option ℕ
  seedShape : ℕ × ℕ × ℕ
  gShape : Option (ℕ × ℕ × ℕ)
  outBT : Option (ℕ × ℕ)
deriving DecidableEq

/-- Shape-level translation of the preamble of `incremental_forward`
(lines 122–151 and 185–188): `B = 1` unless teacher-forcing inputs are
given, in which case their (possibly transposed) shape determines `B` and
the forced length; the default seed is built as `zeros(B, 1, labels)`,
the global conditioning expands to `B × T × C''`, and the stacked output
is `B × C × T`. -/
def incrementalPlan (labels : ℕ) (TOpt : Option ℕ)
    (testShape : Option (ℕ × ℕ × ℕ)) (gC : Option ℕ) : IncPlan :=
  let B : ℕ := (testShape.map (fun s => s.1)).getD 1
  let len : Option ℕ :=
    testShape.map (fun s => if s.2.1 = labels then s.2.2 else s.2.1)
  let steps : Option ℕ := len.elim TOpt (fun n => some (TOpt.elim n (fun t => max t n)))
  { B := B
    steps := steps
    seedShape := (B, 1, labels)
    gShape := gC.bind (fun gc => steps.map (fun T => (B, T, gc)))
    outBT := steps.map (fun T => (B, T)) }

/-- The skip-accumulation recurrence of the incremental path, as a fold
over the per-block skip frames starting from a given accumulator. -/
def skipRecFrom (cst : α) (acc : Option (Frame α)) (hs : List (Frame α)) :
    Option (Frame α) :=
  hs.foldl (fun a h => some (match a with
    | none => h
    | some s => smulV cst (addV s h))) acc

/-- The skip accumulator produced by a full pipeline pass, starting from
`None` as in the source. -/
def skipRec (cst : α) (hs : List (Frame α)) : Option (Frame α) :=
  skipRecFrom cst none hs

/-- The skip-accumulation recurrence of the bulk path, folding per-block
skip sequences. -/
def seqSkipRecFrom (cst : α) (acc : Option (List (Frame α)))
    (hss : List (List (Frame α))) : Option (List (Frame α)) :=
  hss.foldl (fun a hs => some (match a with
    | none => hs
    | some s => List.zipWith (fun x h => smulV cst (addV x h)) s hs)) acc

/-- The bulk skip accumulator starting from `None` as in the source. -/
def seqSkipRec (cst : α) (hss : List (List (Frame α))) : Option (List (Frame α)) :=
  seqSkipRecFrom cst none hss

/-- The list of per-block skip frames produced along one incremental
pipeline pass (block `n` receives block `n-1`'s residual output). -/
def pipeStepSkips (p : Params α) : List (Conv1dGLU α) → List (Buf α) → Frame α →
    (Option (Frame α) × Option (Frame α)) → List (Frame α)
  | [], _, _, _ => []
  | f :: fs, bufs, x, cg =>
    (blockStep p f (bufs.headD []) (x, cg.1, cg.2)).1.2 ::
      pipeStepSkips p fs bufs.tail (blockStep p f (bufs.headD []) (x, cg.1, cg.2)).1.1 cg

/-- The list of per-block skip sequences produced along the bulk layer
fold. -/
def layersBulkSkips (p : Params α) (c g : Option (List (Frame α))) :
    List (Conv1dGLU α) → List (Frame α) → List (List (Frame α))
  | [], _ => []
  | f :: fs, xs =>
    (blockBulk p f (attach c g 0 xs)).map (fun r => r.2) ::
      layersBulkSkips p c g fs ((blockBulk p f (attach c g 0 xs)).map (fun r => r.1))

/-- The tail of one incremental step: output head followed by the
optional softmax, applied to the skip-sum frame. -/
def postHead (p : Params α) (net : WaveNet α) (softmax : Bool) (v : Frame α) :
    Frame α :=
  let v' := net.last_conv_layers.foldl (fun acc f => headIncApply f acc) v
  if softmax then p.softmaxF v' else v'

instance exceptDecEq {ε β : Type} [DecidableEq ε] [DecidableEq β] :
    DecidableEq (Except ε β) := fun a b =>
  match a, b with
  | .ok x, .ok y =>
    if h : x = y then isTrue (by rw [h])
    else isFalse (fun hc => h (Except.ok.inj hc))
  | .error e, .error f =>
    if h : e = f then isTrue (by rw [h])
    else isFalse (fun hc => h (Except.error.inj hc))
  | .ok _, .error _ => isFalse (fun hc => Except.noConfusion hc)
  | .error _, .ok _ => isFalse (fun hc => Except.noConfusion hc)

/-- Concrete parameter choice over `ℤ` used for evaluations: identity
nonlinearities, skip constant 2, identity softmax. -/
def pInt : Params ℤ := ⟨fun a => a, fun a => a, 2, fun v => v⟩

/-- Concrete two-label network with one residual block, used to evaluate
the step/bulk equivalence at a small input. -/
def netA : WaveNet ℤ :=
  ⟨2, ⟨[[[1, 0], [0, 1]]], [0, 0], 2, 1⟩,
    [⟨⟨[[[1, 0], [0, 1]], [[0, 1], [1, 0]]], [1, 2], 2, 1⟩, none, none,
      [[1], [1]], [[3]]⟩],
    [.relu, .conv1x1 [[1], [2]] [0, 1]]⟩

/-- Concrete degenerate one-label network with no residual blocks and no
head layers, used to evaluate step-count and trace properties. -/
def netB : WaveNet ℤ := ⟨1, ⟨[[[1]]], [0], 1, 1⟩, [], []⟩

/-- Concrete one-label network with one buffered residual block whose
head output is not a probability distribution, used to exhibit a failing
quantized run. -/
def netC : WaveNet ℤ :=
  ⟨1, ⟨[[[1], [1]]], [0, 0], 1, 1⟩,
    [⟨⟨[[[1, 0], [0, 1]], [[1, 0], [0, 1]]], [2, 5], 2, 1⟩, none, none,
      [[0], [0]], [[1]]⟩],
    []⟩

end WN

namespace WN

variable {α : Type} [LinearOrderedCommRing α]

lemma runCell_windows (cell : ConvCell α) :
    ∀ (xs : List (Frame α)) (buf : Buf α), buf.length = histLen cell →
      runCell cell buf xs =
        (List.range xs.length).map
          (fun t => cellApply cell (((buf ++ xs).drop t).take (histLen cell + 1))) := by
  intro xs
  induction xs with
  | nil => intro buf _; simp [runCell]
  | cons x xs ih =>
    intro buf hbuf
    have hlen : (buf ++ [x]).length = histLen cell + 1 := by
      simp [hbuf]
    have hdrop : ((buf ++ [x]).drop 1).length = histLen cell := by
      simp [hlen]
    have happ : buf ++ x :: xs = (buf ++ [x]) ++ xs := by
      simp
    have hhead : ((buf ++ x :: xs).drop 0).take (histLen cell + 1) = buf ++ [x] := by
      rw [happ, List.drop_zero, List.take_append_eq_append_take]
      have h1 : (buf ++ [x]).take (histLen cell + 1) = buf ++ [x] :=
        List.take_of_length_le (le_of_eq hlen)
      have h2 : histLen cell + 1 - (buf ++ [x]).length = 0 := by
        rw [hlen]; omega
      rw [h1, h2, List.take_zero, List.append_nil]
    have htail : ∀ t : ℕ,
        (((buf ++ [x]).drop 1 ++ xs).drop t).take (histLen cell + 1) =
          ((buf ++ x :: xs).drop (t + 1)).take (histLen cell + 1) := by
      intro t
      have hsplit : (buf ++ [x]).drop 1 ++ xs = (buf ++ x :: xs).drop 1 := by
        cases buf with
        | nil => simp
        | cons b bs => simp
      rw [hsplit, List.drop_drop, Nat.add_comm 1 t]
    calc runCell cell buf (x :: xs)
        = cellApply cell (buf ++ [x]) ::
            runCell cell ((buf ++ [x]).drop 1) xs := by
          simp [runCell, stepCell]
      _ = cellApply cell (buf ++ [x]) ::
            (List.range xs.length).map
              (fun t => cellApply cell
                ((((buf ++ [x]).drop 1 ++ xs).drop t).take (histLen cell + 1))) := by
          rw [ih _ hdrop]
      _ = cellApply cell (buf ++ [x]) ::
            (List.range xs.length).map
              (fun t => cellApply cell
                (((buf ++ x :: xs).drop (t + 1)).take (histLen cell + 1))) := by
          congr 1
          exact List.map_congr_left (fun t _ => by rw [htail t])
      _ = (List.range (x :: xs).length).map
            (fun t => cellApply cell
              (((buf ++ x :: xs).drop t).take (histLen cell + 1))) := by
          rw [List.length_cons, List.range_succ_eq_map, List.map_cons, List.map_map]
          rw [hhead]
          rfl

lemma runCell_eq_bulkCell (cell : ConvCell α) (xs : List (Frame α)) :
    runCell cell (initBuf cell) xs = bulkCell cell xs := by
  rw [runCell_windows cell xs (initBuf cell) (by simp [initBuf])]
  rfl

lemma runCell_length (cell : ConvCell α) :
    ∀ (buf : Buf α) (xs : List (Frame α)), (runCell cell buf xs).length = xs.length := by
  intro buf xs
  induction xs generalizing buf with
  | nil => simp [runCell]
  | cons x xs ih => simp [runCell, ih]

lemma bulkCell_length (cell : ConvCell α) (xs : List (Frame α)) :
    (bulkCell cell xs).length = xs.length := by
  simp [bulkCell]

lemma getD_irrel {β : Type} (l : List β) (t : ℕ) (d d' : β) (h : t < l.length) :
    l.getD t d = l.getD t d' := by
  rw [List.getD_eq_getElem l d h, List.getD_eq_getElem l d' h]

lemma getD_range_map {β : Type} (f : ℕ → β) (n j : ℕ) (d : β) (h : j < n) :
    ((List.range n).map f).getD j d = f j := by
  have hj : j < ((List.range n).map f).length := by simp [h]
  rw [List.getD_eq_getElem _ d hj]
  simp

lemma map_getD_range_self (xs : List (Frame α)) :
    (List.range xs.length).map (fun t => xs.getD t []) = xs := by
  induction xs with
  | nil => simp
  | cons x xs ih =>
    rw [List.length_cons, List.range_succ_eq_map, List.map_cons, List.map_map]
    have hc : ((fun t => (x :: xs).getD t ([] : Frame α)) ∘ Nat.succ) =
        (fun t => xs.getD t []) := by
      funext t
      simp [Function.comp]
    rw [List.getD_cons_zero, hc, ih]

lemma zipWith_mk_map {β γ δ : Type} (F : γ → δ) :
    ∀ (a : List β) (b : List γ), a.length = b.length →
      ((List.zipWith Prod.mk a b).map (fun r => F r.2)) = b.map F := by
  intro a
  induction a with
  | nil => intro b hb; cases b with
    | nil => simp
    | cons y ys => simp at hb
  | cons x xs ih =>
    intro b hb
    cases b with
    | nil => simp at hb
    | cons y ys =>
      simp only [List.zipWith_cons_cons, List.map_cons]
      rw [ih ys (by simpa using hb)]

lemma zipWith_mk_map_snd {β γ : Type} :
    ∀ (a : List β) (b : List γ), a.length = b.length →
      (List.zipWith Prod.mk a b).map (fun r => r.2) = b := by
  intro a
  induction a with
  | nil =>
    intro b hb
    cases b with
    | nil => simp
    | cons y ys => simp at hb
  | cons x xs ih =>
    intro b hb
    cases b with
    | nil => simp at hb
    | cons y ys =>
      simp only [List.zipWith_cons_cons, List.map_cons]
      rw [ih ys (by simpa using hb)]

lemma zipWith_replicate_left {β γ δ : Type} (f : β → γ → δ) (cst : β) :
    ∀ (l : List γ) (n : ℕ), n = l.length →
      List.zipWith f (List.replicate n cst) l = l.map (f cst) := by
  intro l
  induction l with
  | nil => intro n hn; subst hn; simp
  | cons y ys ih =>
    intro n hn
    subst hn
    simp only [List.length_cons, List.replicate_succ, List.zipWith_cons_cons,
      List.map_cons]
    rw [ih ys.length rfl]

lemma runBlock_eq_zip (p : Params α) (blk : Conv1dGLU α) :
    ∀ (ins : List (StepIn α)) (buf : Buf α),
      runBlock p blk buf ins =
        List.zipWith (fun (i : StepIn α) y => bPointwise p blk i.1 y i.2.1 i.2.2)
          ins (runCell blk.cell buf (ins.map (fun i => i.1))) := by
  intro ins
  induction ins with
  | nil => intro buf; simp [runBlock, runCell]
  | cons i ins ih =>
    intro buf
    simp only [runBlock, blockStep, List.map_cons, runCell, List.zipWith_cons_cons]
    rw [ih]

lemma runBlock_eq_blockBulk (p : Params α) (blk : Conv1dGLU α) (ins : List (StepIn α)) :
    runBlock p blk (initBuf blk.cell) ins = blockBulk p blk ins := by
  rw [runBlock_eq_zip, runCell_eq_bulkCell, blockBulk]

lemma blockBulk_length (p : Params α) (blk : Conv1dGLU α) (ins : List (StepIn α)) :
    (blockBulk p blk ins).length = ins.length := by
  simp [blockBulk, bulkCell_length]

lemma attach_length (c g : Option (List (Frame α))) :
    ∀ (xs : List (Frame α)) (t : ℕ), (attach c g t xs).length = xs.length := by
  intro xs
  induction xs with
  | nil => intro t; simp [attach]
  | cons x xs ih => intro t; simp [attach, ih]

lemma attach_replace (c g : Option (List (Frame α))) :
    ∀ (rs : List (Frame α × Frame α)) (xs : List (Frame α)) (t : ℕ),
      rs.length = xs.length →
      List.zipWith (fun (r : Frame α × Frame α) (i : StepIn α) => ((r.1, i.2) : StepIn α))
        rs (attach c g t xs) = attach c g t (rs.map (fun r => r.1)) := by
  intro rs
  induction rs with
  | nil => intro xs t _; simp [attach]
  | cons r rs ih =>
    intro xs t hlen
    cases xs with
    | nil => simp at hlen
    | cons x xs =>
      simp only [attach, List.zipWith_cons_cons, List.map_cons]
      rw [ih xs (t + 1) (by simpa using hlen)]

lemma attach_zip_range' (c g : Option (List (Frame α))) (f : ℕ → Frame α) :
    ∀ (ys : List (Frame α)) (t0 : ℕ),
      List.zipWith (fun (i : StepIn α) y => ((y, i.2) : StepIn α))
        ((List.range' t0 ys.length).map (fun t => ((f t, condAt c t, condAt g t) : StepIn α))) ys =
        attach c g t0 ys := by
  intro ys
  induction ys with
  | nil => intro t0; simp [attach]
  | cons y ys ih =>
    intro t0
    rw [List.length_cons, List.range'_succ, List.map_cons, List.zipWith_cons_cons]
    simp only [attach]
    rw [ih (t0 + 1)]

lemma layersBulk_nil (p : Params α) (c g : Option (List (Frame α)))
    (st : List (Frame α) × Option (List (Frame α))) :
    layersBulk p [] c g st = st := rfl

lemma layersBulk_cons (p : Params α) (c g : Option (List (Frame α)))
    (b : Conv1dGLU α) (bs : List (Conv1dGLU α))
    (st : List (Frame α) × Option (List (Frame α))) :
    layersBulk p (b :: bs) c g st =
      layersBulk p bs c g
        ((blockBulk p b (attach c g 0 st.1)).map (fun r => r.1),
          some (match st.2 with
            | none => (blockBulk p b (attach c g 0 st.1)).map (fun r => r.2)
            | some s => List.zipWith (fun a h => smulV p.sqrtHalf (addV a h)) s
                ((blockBulk p b (attach c g 0 st.1)).map (fun r => r.2)))) := rfl

lemma pipeRunAcc_nil_blocks (p : Params α) :
    ∀ (ins : List (StepIn α)) (bufs : List (Buf α)) (accs : List (Option (Frame α))),
      accs.length = ins.length →
      (pipeRunAcc p [] bufs ins accs).1 =
        List.zipWith (fun (i : StepIn α) a => ((i.1, a) : Frame α × Option (Frame α)))
          ins accs := by
  intro ins
  induction ins with
  | nil => intro bufs accs _; simp [pipeRunAcc]
  | cons i ins ih =>
    intro bufs accs hlen
    cases accs with
    | nil => simp at hlen
    | cons a as =>
      simp only [pipeRunAcc, pipeStep, List.zipWith_cons_cons, List.headD_cons,
        List.tail_cons]
      rw [ih bufs as (by simpa using hlen)]

lemma zip_attach_fst (c g : Option (List (Frame α))) :
    ∀ (xs : List (Frame α)) (accs : List (Option (Frame α))) (t : ℕ),
      List.zipWith (fun (i : StepIn α) a => ((i.1, a) : Frame α × Option (Frame α)))
        (attach c g t xs) accs = List.zipWith Prod.mk xs accs := by
  intro xs
  induction xs with
  | nil => intro accs t; simp [attach]
  | cons x xs ih =>
    intro accs t
    cases accs with
    | nil => simp [attach]
    | cons a as =>
      simp only [attach, List.zipWith_cons_cons]
      rw [ih as (t + 1)]

lemma pipeRunAcc_cons_block (p : Params α) (b : Conv1dGLU α) (bs : List (Conv1dGLU α)) :
    ∀ (ins : List (StepIn α)) (buf0 : Buf α) (bufs : List (Buf α))
      (accs : List (Option (Frame α))), accs.length = ins.length →
      pipeRunAcc p (b :: bs) (buf0 :: bufs) ins accs =
        ((pipeRunAcc p bs bufs
            (List.zipWith (fun (r : Frame α × Frame α) (i : StepIn α) =>
                ((r.1, i.2) : StepIn α)) (runBlock p b buf0 ins) ins)
            (List.zipWith (fun (a : Option (Frame α)) (r : Frame α × Frame α) =>
                (some (match a with
                  | none => r.2
                  | some s => smulV p.sqrtHalf (addV s r.2)) : Option (Frame α)))
              accs (runBlock p b buf0 ins))).1,
          ins.foldl (fun bf (i : StepIn α) => pushBuf bf i.1) buf0 ::
            (pipeRunAcc p bs bufs
              (List.zipWith (fun (r : Frame α × Frame α) (i : StepIn α) =>
                  ((r.1, i.2) : StepIn α)) (runBlock p b buf0 ins) ins)
              (List.zipWith (fun (a : Option (Frame α)) (r : Frame α × Frame α) =>
                  (some (match a with
                    | none => r.2
                    | some s => smulV p.sqrtHalf (addV s r.2)) : Option (Frame α)))
                accs (runBlock p b buf0 ins))).2) := by
  intro ins
  induction ins with
  | nil =>
    intro buf0 bufs accs hlen
    have : accs = [] := List.length_eq_zero.mp (by simpa using hlen)
    subst this
    simp [pipeRunAcc, runBlock]
  | cons i ins ih =>
    intro buf0 bufs accs hlen
    cases accs with
    | nil => simp at hlen
    | cons a as =>
      have has : as.length = ins.length := by simpa using hlen
      simp only [pipeRunAcc, pipeStep, runBlock, List.zipWith_cons_cons,
        List.headD_cons, List.tail_cons, List.foldl_cons]
      simp only [show ((i.1, i.2.1, i.2.2) : StepIn α) = i from rfl]
      rw [ih ((blockStep p b buf0 i).2) _ as has]
      rfl

lemma layers_interchange (p : Params α) (c g : Option (List (Frame α))) :
    ∀ (blocks : List (Conv1dGLU α)) (xs : List (Frame α))
      (s : Option (List (Frame α))) (accs : List (Option (Frame α))),
      ((s = none ∧ accs = List.replicate xs.length none) ∨
        (∃ l, s = some l ∧ l.length = xs.length ∧ accs = l.map some)) →
      (layersBulk p blocks c g (xs, s)).1.length = xs.length ∧
      (((layersBulk p blocks c g (xs, s)).2 = none ∧
          (pipeRunAcc p blocks (blocks.map (fun bb => initBuf bb.cell))
            (attach c g 0 xs) accs).1 =
            List.zipWith Prod.mk (layersBulk p blocks c g (xs, s)).1
              (List.replicate xs.length none)) ∨
        (∃ l, (layersBulk p blocks c g (xs, s)).2 = some l ∧ l.length = xs.length ∧
          (pipeRunAcc p blocks (blocks.map (fun bb => initBuf bb.cell))
            (attach c g 0 xs) accs).1 =
            List.zipWith Prod.mk (layersBulk p blocks c g (xs, s)).1 (l.map some))) := by
  intro blocks
  induction blocks with
  | nil =>
    intro xs s accs hrel
    have hlenA : accs.length = (attach c g 0 xs).length := by
      rw [attach_length]
      rcases hrel with ⟨_, ha⟩ | ⟨l, _, hl, ha⟩
      · simp [ha]
      · simp [ha, hl]
    refine ⟨rfl, ?_⟩
    rcases hrel with ⟨hs, ha⟩ | ⟨l, hs, hl, ha⟩
    · left
      subst hs
      subst ha
      exact ⟨rfl, by rw [pipeRunAcc_nil_blocks p _ _ _ hlenA, zip_attach_fst]; rfl⟩
    · right
      subst hs
      subst ha
      exact ⟨l, rfl, hl, by rw [pipeRunAcc_nil_blocks p _ _ _ hlenA, zip_attach_fst]; rfl⟩
  | cons b bs ih =>
    intro xs s accs hrel
    have hlenA : accs.length = (attach c g 0 xs).length := by
      rw [attach_length]
      rcases hrel with ⟨_, ha⟩ | ⟨l, _, hl, ha⟩
      · simp [ha]
      · simp [ha, hl]
    have hlenRS : (blockBulk p b (attach c g 0 xs)).length = xs.length := by
      rw [blockBulk_length, attach_length]
    have hxs : ((blockBulk p b (attach c g 0 xs)).map (fun r => r.1)).length = xs.length := by
      simp [hlenRS]
    rw [layersBulk_cons]
    simp only [List.map_cons]
    rw [pipeRunAcc_cons_block p b bs (attach c g 0 xs) (initBuf b.cell)
      (bs.map (fun bb => initBuf bb.cell)) accs hlenA]
    dsimp only
    rw [runBlock_eq_blockBulk]
    rw [attach_replace c g (blockBulk p b (attach c g 0 xs)) xs 0 hlenRS]
    rcases hrel with ⟨hs, ha⟩ | ⟨l, hs, hl, ha⟩
    · subst hs
      subst ha
      rw [zipWith_replicate_left _ _ (blockBulk p b (attach c g 0 xs)) xs.length hlenRS.symm]
      dsimp only
      have hrel' :
          ((some ((blockBulk p b (attach c g 0 xs)).map (fun r => r.2)) : Option (List (Frame α))) = none ∧
            (blockBulk p b (attach c g 0 xs)).map (fun r => some r.2) =
              List.replicate ((blockBulk p b (attach c g 0 xs)).map (fun r => r.1)).length none) ∨
          (∃ l2, (some ((blockBulk p b (attach c g 0 xs)).map (fun r => r.2)) : Option (List (Frame α))) = some l2 ∧
            l2.length = ((blockBulk p b (attach c g 0 xs)).map (fun r => r.1)).length ∧
            (blockBulk p b (attach c g 0 xs)).map (fun r => some r.2) = l2.map some) := by
        right
        refine ⟨(blockBulk p b (attach c g 0 xs)).map (fun r => r.2), rfl, by simp, ?_⟩
        rw [List.map_map]
        rfl
      have IHr := ih ((blockBulk p b (attach c g 0 xs)).map (fun r => r.1))
        (some ((blockBulk p b (attach c g 0 xs)).map (fun r => r.2)))
        ((blockBulk p b (attach c g 0 xs)).map (fun r => some r.2)) hrel'
      rw [hxs] at IHr
      exact IHr
    · subst hs
      subst ha
      rw [List.zipWith_map_left]
      dsimp only
      have hzl : List.zipWith
          (fun a (r : Frame α × Frame α) => some (smulV p.sqrtHalf (addV a r.2)))
          l (blockBulk p b (attach c g 0 xs)) =
          (List.zipWith (fun a h => smulV p.sqrtHalf (addV a h)) l
            ((blockBulk p b (attach c g 0 xs)).map (fun r => r.2))).map some := by
        rw [List.zipWith_map_right, List.map_zipWith]
      rw [hzl]
      have hlen2 : (List.zipWith (fun a h => smulV p.sqrtHalf (addV a h)) l
          ((blockBulk p b (attach c g 0 xs)).map (fun r => r.2))).length =
          ((blockBulk p b (attach c g 0 xs)).map (fun r => r.1)).length := by
        simp [hl, hlenRS]
      have hrel' :
          ((some (List.zipWith (fun a h => smulV p.sqrtHalf (addV a h)) l
              ((blockBulk p b (attach c g 0 xs)).map (fun r => r.2))) : Option (List (Frame α))) = none ∧
            (List.zipWith (fun a h => smulV p.sqrtHalf (addV a h)) l
              ((blockBulk p b (attach c g 0 xs)).map (fun r => r.2))).map some =
              List.replicate ((blockBulk p b (attach c g 0 xs)).map (fun r => r.1)).length none) ∨
          (∃ l2, (some (List.zipWith (fun a h => smulV p.sqrtHalf (addV a h)) l
              ((blockBulk p b (attach c g 0 xs)).map (fun r => r.2))) : Option (List (Frame α))) = some l2 ∧
            l2.length = ((blockBulk p b (attach c g 0 xs)).map (fun r => r.1)).length ∧
            (List.zipWith (fun a h => smulV p.sqrtHalf (addV a h)) l
              ((blockBulk p b (attach c g 0 xs)).map (fun r => r.2))).map some = l2.map some) := by
        right
        exact ⟨_, rfl, hlen2, rfl⟩
      have IHr := ih ((blockBulk p b (attach c g 0 xs)).map (fun r => r.1))
        (some (List.zipWith (fun a h => smulV p.sqrtHalf (addV a h)) l
          ((blockBulk p b (attach c g 0 xs)).map (fun r => r.2))))
        ((List.zipWith (fun a h => smulV p.sqrtHalf (addV a h)) l
          ((blockBulk p b (attach c g 0 xs)).map (fun r => r.2))).map some) hrel'
      rw [hxs] at IHr
      exact IHr

lemma netRun_length (p : Params α) (net : WaveNet α) (sm : Bool) :
    ∀ (ins : List (StepIn α)) (st : NetState α),
      (netRun p net sm st ins).length = ins.length := by
  intro ins
  induction ins with
  | nil => intro st; simp [netRun]
  | cons i ins ih => intro st; simp [netRun, ih]

lemma netRun_decomp (p : Params α) (net : WaveNet α) (sm : Bool) :
    ∀ (ins : List (StepIn α)) (fb : Buf α) (bbufs : List (Buf α)),
      netRun p net sm ⟨fb, bbufs⟩ ins =
        ((pipeRunAcc p net.conv_layers bbufs
            (List.zipWith (fun (i : StepIn α) y => ((y, i.2) : StepIn α)) ins
              (runCell net.first_conv fb (ins.map (fun i => i.1))))
            (List.replicate ins.length none)).1).map
          (fun r => postHead p net sm (r.2.getD [])) := by
  intro ins
  induction ins with
  | nil => intro fb bbufs; simp [netRun, runCell, pipeRunAcc]
  | cons i ins ih =>
    intro fb bbufs
    simp only [netRun, netStepBody, runCell, List.map_cons, List.zipWith_cons_cons,
      List.length_cons, List.replicate_succ, pipeRunAcc, List.headD_cons,
      List.tail_cons, List.map]
    rw [ih (stepCell net.first_conv fb i.1).2]
    rfl

lemma heads_fold_map :
    ∀ (fs : List (HeadLayer α)) (xs : List (Frame α)),
      fs.foldl (fun acc f => headBulk f acc) xs =
        xs.map (fun v => fs.foldl (fun a f => headIncApply f a) v) := by
  intro fs
  induction fs with
  | nil => intro xs; simp
  | cons f fs ih =>
    intro xs
    have hone : headBulk f xs = xs.map (fun v => headIncApply f v) := by
      cases f with
      | relu => rfl
      | conv1x1 W b =>
        apply List.map_congr_left
        intro v _
        simp [headIncApply, headStepOpt, headPlainApply, stepCell, conv1x1Cell,
          cellApply, List.range_succ]
    rw [List.foldl_cons, hone, ih, List.map_map]
    rfl

lemma genLoop_rng_irrel (p : Params α) (net : WaveNet α)
    (c g : Option (List (Frame α))) (test : Option (List (Frame α)))
    (sm : Bool) (rng1 rng2 : ℕ → ℕ) :
    ∀ (ts : List ℕ) (cur : Frame α) (st : NetState α),
      genLoop p net c g test sm false rng1 ts cur st =
        genLoop p net c g test sm false rng2 ts cur st := by
  intro ts
  induction ts with
  | nil => intro cur st; rfl
  | cons t ts ih =>
    intro cur st
    simp only [genLoop, quantizeStep, if_neg Bool.false_ne_true]
    rw [ih]

lemma genLoop_forced (p : Params α) (net : WaveNet α)
    (c g : Option (List (Frame α))) (xs : List (Frame α)) (sm : Bool)
    (rng : ℕ → ℕ) :
    ∀ (ts : List ℕ) (cur : Frame α) (st : NetState α),
      (∀ t ∈ ts, t < xs.length) →
      (genLoop p net c g (some xs) sm false rng ts cur st).1 =
        .ok (List.zipWith Prod.mk (ts.map (fun t => xs.getD t []))
          (netRun p net sm st
            (ts.map (fun t => ((xs.getD t [], condAt c t, condAt g t) : StepIn α))))) := by
  intro ts
  induction ts with
  | nil => intro cur st _; rfl
  | cons t ts ih =>
    intro cur st hmem
    have ht : t < xs.length := hmem t (by simp)
    have hov : overrideInput (some xs) t cur = xs.getD t [] := by
      simp only [overrideInput, if_pos ht]
      exact getD_irrel xs t cur [] ht
    simp only [genLoop, quantizeStep, if_neg Bool.false_ne_true, List.map_cons,
      List.zipWith_cons_cons, netRun, hov]
    have htail := ih (netStepBody p net st (xs.getD t []) (condAt c t) (condAt g t) sm).1
      (netStepBody p net st (xs.getD t []) (condAt c t) (condAt g t) sm).2
      (fun u hu => hmem u (by simp [hu]))
    cases hG : genLoop p net c g (some xs) sm false rng ts
        (netStepBody p net st (xs.getD t []) (condAt c t) (condAt g t) sm).1
        (netStepBody p net st (xs.getD t []) (condAt c t) (condAt g t) sm).2 with
    | mk res stE =>
      rw [hG] at htail
      simp only at htail
      cases res with
      | error e => exact absurd htail (by simp)
      | ok tr =>
        simp only [Except.ok.injEq] at htail
        simp only [htail]

lemma genLoop_trace (p : Params α) (net : WaveNet α)
    (c g : Option (List (Frame α))) (test : Option (List (Frame α)))
    (sm q : Bool) (rng : ℕ → ℕ) :
    ∀ (n s : ℕ) (cur : Frame α) (st : NetState α)
      (tr : List (Frame α × Frame α)) (stE : NetState α),
      genLoop p net c g test sm q rng (List.range' s n) cur st = (.ok tr, stE) →
      tr.length = n ∧
      ∀ i, i < n →
        (tr.getD i ([], [])).1 =
          overrideInput test (s + i)
            (if i = 0 then cur else (tr.getD (i - 1) ([], [])).2) := by
  intro n
  induction n with
  | zero =>
    intro s cur st tr stE h
    simp only [List.range', genLoop, Prod.mk.injEq, Except.ok.injEq] at h
    refine ⟨by simp [← h.1], ?_⟩
    intro i hi
    omega
  | succ n ihn =>
    intro s cur st tr stE h
    rw [List.range'_succ] at h
    simp only [genLoop] at h
    cases hq : quantizeStep q rng net.labels s
        (netStepBody p net st (overrideInput test s cur)
          (condAt c s) (condAt g s) sm).1 with
    | error e =>
      rw [hq] at h
      simp at h
    | ok out =>
      rw [hq] at h
      dsimp only at h
      cases hG : genLoop p net c g test sm q rng (List.range' (s + 1) n) out
          (netStepBody p net st (overrideInput test s cur)
            (condAt c s) (condAt g s) sm).2 with
      | mk res stE2 =>
        rw [hG] at h
        cases res with
        | error e => simp at h
        | ok tr2 =>
          simp only [Prod.mk.injEq, Except.ok.injEq] at h
          obtain ⟨htr, _⟩ := h
          obtain ⟨hlen, htrace⟩ := ihn (s + 1) out _ tr2 stE2 hG
          subst htr
          refine ⟨by simp [hlen], ?_⟩
          intro i hi
          cases i with
          | zero =>
            simp
          | succ j =>
            have hj : j < n := by omega
            have hx := htrace j hj
            have harith : s + 1 + j = s + (j + 1) := by omega
            rw [harith] at hx
            cases j with
            | zero =>
              simpa using hx
            | succ k =>
              simpa using hx

lemma layersBulk_snd_isSome (p : Params α) (c g : Option (List (Frame α))) :
    ∀ (bs : List (Conv1dGLU α)) (st : List (Frame α) × Option (List (Frame α))),
      st.2.isSome → ((layersBulk p bs c g st).2).isSome := by
  intro bs
  induction bs with
  | nil => intro st h; exact h
  | cons b bs ih =>
    intro st h
    rw [layersBulk_cons]
    exact ih _ (by simp)

lemma layersBulk_snd_some (p : Params α) (c g : Option (List (Frame α)))
    (bs : List (Conv1dGLU α)) (hbs : bs ≠ [])
    (st : List (Frame α) × Option (List (Frame α))) :
    ((layersBulk p bs c g st).2).isSome := by
  cases bs with
  | nil => exact absurd rfl hbs
  | cons b bs2 =>
    rw [layersBulk_cons]
    exact layersBulk_snd_isSome p c g bs2 _ (by simp)

lemma pipeStep_skip_char (p : Params α) :
    ∀ (blocks : List (Conv1dGLU α)) (bufs : List (Buf α)) (x : Frame α)
      (cg : Option (Frame α) × Option (Frame α)) (acc : Option (Frame α)),
      (pipeStep p blocks bufs x cg acc).1.2 =
        skipRecFrom p.sqrtHalf acc (pipeStepSkips p blocks bufs x cg) := by
  intro blocks
  induction blocks with
  | nil => intro bufs x cg acc; rfl
  | cons f fs ih =>
    intro bufs x cg acc
    simp only [pipeStep, pipeStepSkips, skipRecFrom, List.foldl_cons]
    exact ih _ _ _ _

lemma netRun_eq_forward (p : Params α) (net : WaveNet α) (xs : List (Frame α))
    (c : Option (List (Frame α))) (g : Option (Frame α)) (sm : Bool)
    (hL : net.conv_layers ≠ []) :
    netRun p net sm (clearedState net)
        ((List.range xs.length).map
          (fun t => ((xs.getD t [], condAt c t,
            condAt (expandG g xs.length) t) : StepIn α))) =
      forward p net xs c g sm := by
  simp only [clearedState]
  rw [netRun_decomp]
  have hfst : ((List.range xs.length).map
      (fun t => ((xs.getD t [], condAt c t,
        condAt (expandG g xs.length) t) : StepIn α))).map (fun i => i.1) = xs := by
    rw [List.map_map]
    exact map_getD_range_self xs
  rw [hfst, runCell_eq_bulkCell]
  have hlenB : (bulkCell net.first_conv xs).length = xs.length :=
    bulkCell_length _ _
  have hzip : List.zipWith (fun (i : StepIn α) y => ((y, i.2) : StepIn α))
      ((List.range xs.length).map
        (fun t => ((xs.getD t [], condAt c t,
          condAt (expandG g xs.length) t) : StepIn α)))
      (bulkCell net.first_conv xs) =
      attach c (expandG g xs.length) 0 (bulkCell net.first_conv xs) := by
    have hz := attach_zip_range' c (expandG g xs.length) (fun t => xs.getD t [])
      (bulkCell net.first_conv xs) 0
    rw [hlenB] at hz
    rw [← List.range_eq_range'] at hz
    exact hz
  rw [hzip]
  have hinsl : ((List.range xs.length).map
      (fun t => ((xs.getD t [], condAt c t,
        condAt (expandG g xs.length) t) : StepIn α))).length = xs.length := by
    simp
  rw [hinsl]
  obtain ⟨hlen1, hdisj⟩ := layers_interchange p c (expandG g xs.length)
    net.conv_layers (bulkCell net.first_conv xs) none
    (List.replicate xs.length none)
    (Or.inl ⟨rfl, congrArg (fun n => List.replicate n (none : Option (Frame α))) hlenB.symm⟩)
  have hsome := layersBulk_snd_some p c (expandG g xs.length) net.conv_layers hL
    (bulkCell net.first_conv xs, none)
  rcases hdisj with ⟨h2none, _⟩ | ⟨l, h2, hlenl, heq⟩
  · rw [h2none] at hsome
    simp at hsome
  · rw [heq]
    have hlen2 : (layersBulk p net.conv_layers c (expandG g xs.length)
        (bulkCell net.first_conv xs, none)).1.length = (l.map some).length := by
      rw [hlenB] at hlen1
      simp [hlen1, hlenl, hlenB]
    calc ((List.zipWith Prod.mk
            (layersBulk p net.conv_layers c (expandG g xs.length)
              (bulkCell net.first_conv xs, none)).1 (l.map some)).map
          (fun r => postHead p net sm (r.2.getD [])))
        = (l.map some).map (fun a => postHead p net sm (a.getD [])) :=
          zipWith_mk_map (fun a => postHead p net sm (a.getD [])) _ _ hlen2
      _ = l.map (fun v => postHead p net sm v) := by
          rw [List.map_map]
          rfl
      _ = forward p net xs c g sm := by
          simp only [forward]
          rw [h2]
          simp only [Option.getD_some]
          rw [heads_fold_map]
          cases sm with
          | true => simp [postHead, List.map_map]
          | false => simp [postHead, List.map_map]

/-- C1 — Step/bulk equivalence: for every weight set, every parameter
choice, and every input sequence `xs` supplied as teacher-forcing inputs
(with buffers cleared at entry, quantization off, matching softmax flags
and at least one residual block), the incremental pass returns exactly
the bulk `forward` outputs at every time step. -/
theorem step_bulk_equiv (p : Params α) (net : WaveNet α) (st0 : NetState α)
    (xs : List (Frame α)) (M : List (List α)) (c : Option (List (Frame α)))
    (g : Option (Frame α)) (sm : Bool) (rng : ℕ → ℕ)
    (hL : net.conv_layers ≠ []) :
    (incremental_forward p net st0 (some M) c g none (some xs) sm false rng).1 =
      .ok (forward p net xs c g sm) := by
  have hforced := genLoop_forced p net c (expandG g xs.length) xs sm rng
    (List.range xs.length)
    ((if M.length = net.labels then tpose M else M).headD [])
    (clearedState net)
    (fun t ht => List.mem_range.mp ht)
  simp only [incremental_forward, resolveT, resolveInitial]
  cases hG : genLoop p net c (expandG g xs.length) (some xs) sm false rng
      (List.range xs.length)
      ((if M.length = net.labels then tpose M else M).headD [])
      (clearedState net) with
  | mk res stE =>
    rw [hG] at hforced
    simp only at hforced
    rw [hforced]
    dsimp only
    have hlenA : ((List.range xs.length).map (fun t => xs.getD t [])).length =
        (netRun p net sm (clearedState net)
          ((List.range xs.length).map
            (fun t => ((xs.getD t [], condAt c t,
              condAt (expandG g xs.length) t) : StepIn α)))).length := by
      rw [netRun_length]
      simp
    rw [zipWith_mk_map_snd _ _ hlenA]
    rw [netRun_eq_forward p net xs c g sm hL]

lemma layersBulk_skip_char (p : Params α) (c g : Option (List (Frame α))) :
    ∀ (blocks : List (Conv1dGLU α)) (xs : List (Frame α))
      (s : Option (List (Frame α))),
      (layersBulk p blocks c g (xs, s)).2 =
        seqSkipRecFrom p.sqrtHalf s (layersBulkSkips p c g blocks xs) := by
  intro blocks
  induction blocks with
  | nil => intro xs s; rfl
  | cons b bs ih =>
    intro xs s
    rw [layersBulk_cons]
    simp only [layersBulkSkips, seqSkipRecFrom, List.foldl_cons]
    exact ih _ _

lemma flat_rep_length {β : Type} (blk : List β) :
    ∀ s : ℕ, (List.flatten (List.replicate s blk)).length = s * blk.length := by
  intro s
  induction s with
  | zero => simp
  | succ n ih =>
    simp only [List.replicate_succ, List.flatten_cons, List.length_append, ih,
      Nat.succ_mul]
    omega

lemma flat_rep_getD (blk : List ℕ) :
    ∀ (s i : ℕ), i < s * blk.length →
      (List.flatten (List.replicate s blk)).getD i 0 =
        blk.getD (i % blk.length) 0 := by
  intro s
  induction s with
  | zero =>
    intro i hi
    simp only [Nat.zero_mul] at hi
    omega
  | succ n ih =>
    intro i hi
    rw [List.replicate_succ, List.flatten_cons]
    by_cases hcase : i < blk.length
    · rw [List.getD_append _ _ _ _ hcase, Nat.mod_eq_of_lt hcase]
    · push_neg at hcase
      rw [List.getD_append_right _ _ _ _ hcase]
      have hi' : i < n * blk.length + blk.length := by
        rw [Nat.succ_mul] at hi
        exact hi
      have hlt : i - blk.length < n * blk.length := by omega
      rw [ih (i - blk.length) hlt]
      congr 1
      exact (Nat.mod_eq_sub_mod hcase).symm

lemma incremental_ok_length (p : Params α) (net : WaveNet α) (st0 : NetState α)
    (Minit : Option (List (List α))) (c : Option (List (Frame α)))
    (g : Option (Frame α)) (TOpt : Option ℕ) (test : Option (List (Frame α)))
    (sm q : Bool) (rng : ℕ → ℕ) (out : List (Frame α)) (stE : NetState α)
    (T : ℕ) (hT : resolveT TOpt test = some T)
    (h : incremental_forward p net st0 Minit c g TOpt test sm q rng =
      (.ok out, stE)) :
    out.length = T := by
  simp only [incremental_forward] at h
  rw [hT] at h
  dsimp only at h
  cases hri : resolveInitial net.labels Minit with
  | error e =>
    rw [hri] at h
    dsimp only at h
    simp at h
  | ok i0 =>
    rw [hri] at h
    dsimp only at h
    cases hG : genLoop p net c (expandG g T) test sm q rng (List.range T) i0
        (clearedState net) with
    | mk res stE2 =>
      rw [hG] at h
      cases res with
      | error e => simp at h
      | ok tr =>
        simp only [Prod.mk.injEq, Except.ok.injEq] at h
        rw [List.range_eq_range'] at hG
        obtain ⟨hlen, _⟩ := genLoop_trace p net c (expandG g T) test sm q rng
          T 0 i0 (clearedState net) tr stE2 hG
        rw [← h.1]
        simp [hlen]

/-- C2 — Dilation schedule: when `stacks` is positive and divides
`layers`, construction assigns block `i` (0-based, construction order)
the dilation `2 ^ (i % (layers / stacks))`, doubling within a stack and
restarting at each stack boundary; when `layers % stacks` is nonzero the
construction fails before any block is built. -/
theorem dilation_schedule (layers nstacks : ℕ) (h : 0 < nstacks) :
    (layers % nstacks = 0 →
      ∃ ds, wavenetDilations layers nstacks = some ds ∧ ds.length = layers ∧
        ∀ i, i < layers → ds.getD i 0 = 2 ^ (i % (layers / nstacks))) ∧
    (layers % nstacks ≠ 0 → wavenetDilations layers nstacks = none) := by
  constructor
  · intro hmod
    have hdvd : nstacks ∣ layers := Nat.dvd_of_mod_eq_zero hmod
    have htot : nstacks * (layers / nstacks) = layers := Nat.mul_div_cancel' hdvd
    have hrep : (List.range nstacks).map
        (fun _ => (List.range (layers / nstacks)).map (fun layer => 2 ^ layer)) =
        List.replicate nstacks
          ((List.range (layers / nstacks)).map (fun layer => 2 ^ layer)) := by
      rw [List.map_const', List.length_range]
    have hblk : ((List.range (layers / nstacks)).map
        (fun layer => 2 ^ layer)).length = layers / nstacks := by
      simp
    refine ⟨_, by rw [wavenetDilations, if_pos ⟨h.ne', hmod⟩], ?_, ?_⟩
    · rw [hrep, flat_rep_length, hblk, htot]
    · intro i hi
      have hil : i < nstacks * ((List.range (layers / nstacks)).map
          (fun layer => 2 ^ layer)).length := by
        rw [hblk, htot]
        exact hi
      rw [hrep, flat_rep_getD _ nstacks i hil, hblk]
      have hpos : 0 < layers / nstacks := by
        rcases Nat.eq_zero_or_pos (layers / nstacks) with h0 | hpos
        · rw [h0, Nat.mul_zero] at htot
          omega
        · exact hpos
      exact getD_range_map _ _ _ _ (Nat.mod_lt _ hpos)
  · intro hmod
    rw [wavenetDilations, if_neg]
    intro hcon
    exact hmod hcon.2

/-- C3 — Skip accumulation: in one incremental step the pipeline's skip
accumulator is the fold of the per-block skip frames under
`skips = h if skips is None else (skips + h) * sqrt(0.5)`, the bulk layer
fold satisfies the identical recurrence (same `sqrtHalf` constant) over
per-block skip sequences, and the fold obeys `skips_1 = h_1`,
`skips_n = (skips_(n-1) + h_n) * sqrt(0.5)`. -/
theorem skip_accumulation (p : Params α) :
    (∀ (blocks : List (Conv1dGLU α)) (bufs : List (Buf α)) (x : Frame α)
        (cg : Option (Frame α) × Option (Frame α)),
      (pipeStep p blocks bufs x cg none).1.2 =
        skipRec p.sqrtHalf (pipeStepSkips p blocks bufs x cg)) ∧
    (∀ (c g : Option (List (Frame α))) (blocks : List (Conv1dGLU α))
        (xs : List (Frame α)),
      (layersBulk p blocks c g (xs, none)).2 =
        seqSkipRec p.sqrtHalf (layersBulkSkips p c g blocks xs)) ∧
    (∀ h : Frame α, skipRec p.sqrtHalf [h] = some h) ∧
    (∀ (hs : List (Frame α)) (h s : Frame α), skipRec p.sqrtHalf hs = some s →
      skipRec p.sqrtHalf (hs ++ [h]) = some (smulV p.sqrtHalf (addV s h))) ∧
    (∀ (hss : List (List (Frame α))) (h s : List (Frame α)),
      seqSkipRec p.sqrtHalf hss = some s →
      seqSkipRec p.sqrtHalf (hss ++ [h]) =
        some (List.zipWith (fun a b => smulV p.sqrtHalf (addV a b)) s h)) := by
  refine ⟨?_, ?_, ?_, ?_, ?_⟩
  · intro blocks bufs x cg
    exact pipeStep_skip_char p blocks bufs x cg none
  · intro c g blocks xs
    exact layersBulk_skip_char p c g blocks xs none
  · intro h
    rfl
  · intro hs h s hrec
    simp only [skipRec, skipRecFrom] at hrec ⊢
    rw [List.foldl_append, hrec]
    rfl
  · intro hss h s hrec
    simp only [seqSkipRec, seqSkipRecFrom] at hrec ⊢
    rw [List.foldl_append, hrec]
    rfl

/-- C4 — Teacher-forced prefix overrides feedback: on a successful run of
the generation loop over `T` steps, the input consumed at step `t` is the
`t`-th teacher-forcing frame whenever one covers `t`, and otherwise the
step `t-1` output (the initial input frame at `t = 0`). -/
theorem teacher_forced_override (p : Params α) (net : WaveNet α)
    (c g test : Option (List (Frame α))) (sm q : Bool) (rng : ℕ → ℕ)
    (T : ℕ) (init : Frame α) (st : NetState α)
    (tr : List (Frame α × Frame α)) (stE : NetState α)
    (hrun : genLoop p net c g test sm q rng (List.range T) init st =
      (.ok tr, stE)) :
    tr.length = T ∧
    ∀ t, t < T →
      (∀ xs, test = some xs → t < xs.length →
        (tr.getD t ([], [])).1 = xs.getD t ([] : Frame α)) ∧
      (∀ xs, test = some xs → xs.length ≤ t →
        (tr.getD t ([], [])).1 =
          (if t = 0 then init else (tr.getD (t - 1) ([], [])).2)) ∧
      (test = none →
        (tr.getD t ([], [])).1 =
          (if t = 0 then init else (tr.getD (t - 1) ([], [])).2)) := by
  rw [List.range_eq_range'] at hrun
  obtain ⟨hlen, htrace⟩ := genLoop_trace p net c g test sm q rng T 0 init st
    tr stE hrun
  refine ⟨hlen, ?_⟩
  intro t ht
  have hx := htrace t ht
  rw [Nat.zero_add] at hx
  refine ⟨?_, ?_, ?_⟩
  · intro xs hxs hcov
    rw [hx, hxs]
    simp only [overrideInput, if_pos hcov]
    exact getD_irrel xs t _ _ hcov
  · intro xs hxs hncov
    rw [hx, hxs]
    simp only [overrideInput, if_neg (not_lt.mpr hncov)]
  · intro hxs
    rw [hx, hxs]
    rfl

/-- C5 — Step-count policy: the generated sequence has
`max T (length of the forced inputs)` entries when both are supplied, the
forced length when `T` is unspecified, and supplying neither makes the
call fail with `missingSteps` before any step runs. -/
theorem step_count_policy (p : Params α) (net : WaveNet α) (st0 : NetState α)
    (Minit : Option (List (List α))) (c : Option (List (Frame α)))
    (g : Option (Frame α)) (sm q : Bool) (rng : ℕ → ℕ) :
    (∀ (T : ℕ) (xs : List (Frame α)) (out : List (Frame α)) (stE : NetState α),
      incremental_forward p net st0 Minit c g (some T) (some xs) sm q rng =
        (.ok out, stE) → out.length = max T xs.length) ∧
    (∀ (xs : List (Frame α)) (out : List (Frame α)) (stE : NetState α),
      incremental_forward p net st0 Minit c g none (some xs) sm q rng =
        (.ok out, stE) → out.length = xs.length) ∧
    (incremental_forward p net st0 Minit c g none none sm q rng).1 =
      .error .missingSteps := by
  refine ⟨?_, ?_, rfl⟩
  · intro T xs out stE h
    exact incremental_ok_length p net st0 Minit c g (some T) (some xs) sm q rng
      out stE (max T xs.length) rfl h
  · intro xs out stE h
    exact incremental_ok_length p net st0 Minit c g none (some xs) sm q rng
      out stE xs.length rfl h

/-- C6 (amended) — Buffer reset discipline: every call clears the buffers
at entry (so the incoming buffer state never influences the call), and the
success exit path re-clears them; a failure exit leaves the buffers as
they were at the failure point (the source has no try/finally), but a
subsequent call is unaffected because it clears at entry. -/
theorem buffer_reset_discipline (p : Params α) (net : WaveNet α)
    (init : Option (List (List α))) (c : Option (List (Frame α)))
    (g : Option (Frame α)) (TOpt : Option ℕ) (test : Option (List (Frame α)))
    (sm q : Bool) (rng : ℕ → ℕ) :
    (∀ s s' : NetState α,
      incremental_forward p net s init c g TOpt test sm q rng =
        incremental_forward p net s' init c g TOpt test sm q rng) ∧
    (∀ (s : NetState α) (out : List (Frame α)) (stE : NetState α),
      incremental_forward p net s init c g TOpt test sm q rng =
        (.ok out, stE) → stE = clearedState net) := by
  constructor
  · intro s s'
    rfl
  · intro s out stE h
    simp only [incremental_forward] at h
    cases hT : resolveT TOpt test with
    | none =>
      rw [hT] at h
      simp at h
    | some T =>
      rw [hT] at h
      dsimp only at h
      cases hri : resolveInitial net.labels init with
      | error e =>
        rw [hri] at h
        dsimp only at h
        simp at h
      | ok i0 =>
        rw [hri] at h
        dsimp only at h
        cases hG : genLoop p net c (expandG g T) test sm q rng (List.range T)
            i0 (clearedState net) with
        | mk res stE2 =>
          rw [hG] at h
          cases res with
          | error e => simp at h
          | ok tr =>
            simp only [Prod.mk.injEq, Except.ok.injEq] at h
            exact h.2.symm

/-- C6 counterexample: a concrete quantized run whose distribution check
fails at step 0 exits with an error while the block buffer still holds
the step's history — the failure exit path does not clear the buffers. -/
theorem buffer_reset_cex :
    (incremental_forward pInt netC (clearedState netC) (some [[3]]) none none
        (some 1) none false true (fun _ => 0)).1 = .error .invalidDistribution ∧
    (incremental_forward pInt netC (clearedState netC) (some [[3]]) none none
        (some 1) none false true (fun _ => 0)).2 ≠ clearedState netC := by
  constructor
  · decide
  · decide

/-- C7 — Output-head step dispatch: head layers without step-mode logic
are applied by their ordinary pointwise call, layers with step-mode logic
are applied through it, and the whole head applied in bulk equals its
per-frame incremental application (no temporal state). -/
theorem head_dispatch :
    (∀ f : HeadLayer α, hasStepLogic f = false →
      ∀ x : Frame α, headIncApply f x = headPlainApply f x) ∧
    (∀ (f : HeadLayer α) (x y : Frame α), headStepOpt f x = some y →
      headIncApply f x = y) ∧
    (∀ (fs : List (HeadLayer α)) (xs : List (Frame α)),
      fs.foldl (fun acc f => headBulk f acc) xs =
        xs.map (fun v => fs.foldl (fun a f => headIncApply f a) v)) := by
  refine ⟨?_, ?_, heads_fold_map⟩
  · intro f hf x
    cases f with
    | relu => rfl
    | conv1x1 W b => simp [hasStepLogic] at hf
  · intro f x y hy
    cases f with
    | relu => simp [headStepOpt] at hy
    | conv1x1 W b =>
      simp only [headStepOpt, Option.some.injEq] at hy
      simp [headIncApply, headStepOpt, hy]

/-- C8 — Default seed frame: with no initial input and more than 127
labels, the resolved step-0 input is the one-hot frame of width `labels`
with its single 1 at the fixed index 127; a supplied channel-major
`labels × 1` initial input is transposed to the single-step time-major
layout, recovering the frame itself. -/
theorem default_seed (labels : ℕ) (hlab : 127 < labels) :
    resolveInitial labels (none : Option (List (List α))) =
      .ok (oneHot labels 127) ∧
    (oneHot labels 127 : Frame α).length = labels ∧
    (oneHot labels 127 : Frame α).getD 127 0 = 1 ∧
    (∀ j, j < labels → j ≠ 127 → (oneHot labels 127 : Frame α).getD j 0 = 0) ∧
    (∀ v : List α, v.length = labels →
      resolveInitial labels (some (v.map (fun a => [a]))) = .ok v) := by
  refine ⟨?_, ?_, ?_, ?_, ?_⟩
  · simp [resolveInitial, hlab]
  · simp [oneHot]
  · rw [oneHot, getD_range_map _ _ _ _ hlab]
    simp
  · intro j hj hne
    rw [oneHot, getD_range_map _ _ _ _ hj]
    simp [hne]
  · intro v hv
    simp only [resolveInitial]
    rw [if_pos (by simp [hv])]
    cases v with
    | nil => rfl
    | cons a vs =>
      have h1 : List.range 1 = [0] := by decide
      simp only [tpose, h1, List.map_cons, List.headD_cons, List.length_cons,
        List.map_map, List.map_nil, Except.ok.injEq]
      exact congrArg (fun w => (a :: w : List α)) (List.map_id' vs)

/-- C9 — Determinism without quantization: with `quantize` disabled, the
result of `incremental_forward` (outputs and exit buffer state) does not
depend on the injected randomness source at all. -/
theorem deterministic_without_quantize (p : Params α) (net : WaveNet α)
    (st0 : NetState α) (init : Option (List (List α)))
    (c : Option (List (Frame α))) (g : Option (Frame α)) (TOpt : Option ℕ)
    (test : Option (List (Frame α))) (sm : Bool) (rng1 rng2 : ℕ → ℕ) :
    incremental_forward p net st0 init c g TOpt test sm false rng1 =
      incremental_forward p net st0 init c g TOpt test sm false rng2 := by
  simp only [incremental_forward]
  cases hT : resolveT TOpt test with
  | none => rfl
  | some T =>
    dsimp only
    cases hri : resolveInitial net.labels init with
    | error e => rfl
    | ok i0 =>
      dsimp only
      rw [genLoop_rng_irrel p net c (expandG g T) test sm rng1 rng2]

/-- C10 — Implicit batch restriction: the batch dimension of
`incremental_forward` is 1 unless teacher-forcing inputs provide one, and
the default seed shape, the expanded global conditioning and the stacked
output all carry that batch dimension. -/
theorem batch_restriction (labels : ℕ) (TOpt : Option ℕ) (gC : Option ℕ) :
    (incrementalPlan labels TOpt none gC).B = 1 ∧
    (∀ b d1 d2, (incrementalPlan labels TOpt (some (b, d1, d2)) gC).B = b) ∧
    (∀ ts, (incrementalPlan labels TOpt ts gC).seedShape =
      ((incrementalPlan labels TOpt ts gC).B, 1, labels)) ∧
    (∀ ts sh, (incrementalPlan labels TOpt ts gC).gShape = some sh →
      sh.1 = (incrementalPlan labels TOpt ts gC).B) ∧
    (∀ ts bt, (incrementalPlan labels TOpt ts gC).outBT = some bt →
      bt.1 = (incrementalPlan labels TOpt ts gC).B) := by
  refine ⟨rfl, fun b d1 d2 => rfl, fun ts => rfl, ?_, ?_⟩
  · intro ts sh hsh
    simp only [incrementalPlan, Option.bind_eq_some, Option.map_eq_some'] at hsh
    obtain ⟨gc, hgc, T, hT, hsh⟩ := hsh
    subst hsh
    rfl
  · intro ts bt hbt
    simp only [incrementalPlan, Option.map_eq_some'] at hbt
    obtain ⟨T, hT, hbt⟩ := hbt
    subst hbt
    rfl

theorem step_bulk_equiv_witness :
    netA.conv_layers ≠ [] ∧
    (incremental_forward pInt netA (clearedState netA) (some [[1, 0]]) none none
        none (some [[1, 0], [0, 1]]) false false (fun _ => 0)).1 =
      .ok (forward pInt netA [[1, 0], [0, 1]] none none false) :=
  ⟨by decide,
    step_bulk_equiv pInt netA (clearedState netA) [[1, 0], [0, 1]] [[1, 0]]
      none none false (fun _ => 0) (by decide)⟩

theorem dilation_schedule_witness :
    wavenetDilations 18 2 =
      some [1, 2, 4, 8, 16, 32, 64, 128, 256,
            1, 2, 4, 8, 16, 32, 64, 128, 256] ∧
    wavenetDilations 10 3 = none ∧
    ((18 % 2 = 0 →
        ∃ ds, wavenetDilations 18 2 = some ds ∧ ds.length = 18 ∧
          ∀ i, i < 18 → ds.getD i 0 = 2 ^ (i % (18 / 2))) ∧
      (18 % 2 ≠ 0 → wavenetDilations 18 2 = none)) :=
  ⟨by decide, by decide, dilation_schedule 18 2 (by decide)⟩

theorem skip_accumulation_witness :
    skipRec (2 : ℤ) [[1]] = some [1] ∧
    skipRec (2 : ℤ) ([[1]] ++ [[5]]) = some (smulV 2 (addV [1] [5])) :=
  ⟨by decide, (skip_accumulation pInt).2.2.2.1 [[1]] [5] [1] (by decide)⟩

theorem teacher_forced_override_witness :
    genLoop pInt netB none none (some [[7]]) false false (fun _ => 0)
        (List.range 2) [5] (clearedState netB) =
      (.ok [([7], []), ([], [])], (⟨[], []⟩ : NetState ℤ)) ∧
    ([([7], []), ([], [])] : List (Frame ℤ × Frame ℤ)).length = 2 := by
  have hrun : genLoop pInt netB none none (some [[7]]) false false (fun _ => 0)
      (List.range 2) [5] (clearedState netB) =
      (.ok [([7], []), ([], [])], (⟨[], []⟩ : NetState ℤ)) := by decide
  exact ⟨hrun,
    (teacher_forced_override pInt netB none none (some [[7]]) false false
      (fun _ => 0) 2 [5] (clearedState netB) [([7], []), ([], [])]
      ⟨[], []⟩ hrun).1⟩

theorem step_count_policy_witness :
    incremental_forward pInt netB (clearedState netB) (some [[3]]) none none
        (some 1) (some [[7], [9]]) false false (fun _ => 0) =
      (.ok [[], []], clearedState netB) ∧
    ([([] : Frame ℤ), []]).length = max 1 2 := by
  have hrun : incremental_forward pInt netB (clearedState netB) (some [[3]])
      none none (some 1) (some [[7], [9]]) false false (fun _ => 0) =
      (.ok [[], []], clearedState netB) := by decide
  exact ⟨hrun,
    (step_count_policy pInt netB (clearedState netB) (some [[3]]) none none
      false false (fun _ => 0)).1 1 [[7], [9]] [[], []]
      (clearedState netB) hrun⟩

theorem buffer_reset_discipline_witness :
    incremental_forward pInt netB (clearedState netB) (some [[3]]) none none
        (some 1) none false false (fun _ => 0) =
      (.ok [[]], (⟨[], []⟩ : NetState ℤ)) ∧
    (⟨[], []⟩ : NetState ℤ) = clearedState netB := by
  have hrun : incremental_forward pInt netB (clearedState netB) (some [[3]])
      none none (some 1) none false false (fun _ => 0) =
      (.ok [[]], (⟨[], []⟩ : NetState ℤ)) := by decide
  exact ⟨hrun,
    (buffer_reset_discipline pInt netB (some [[3]]) none none (some 1) none
      false false (fun _ => 0)).2 (clearedState netB) [[]] ⟨[], []⟩ hrun⟩

theorem head_dispatch_witness :
    hasStepLogic (HeadLayer.relu (α := ℤ)) = false ∧
    headIncApply (HeadLayer.relu (α := ℤ)) [-3, 2] =
      headPlainApply HeadLayer.relu [-3, 2] ∧
    headStepOpt (HeadLayer.conv1x1 [[2]] [1] : HeadLayer ℤ) [4] = some [9] ∧
    headIncApply (HeadLayer.conv1x1 [[2]] [1] : HeadLayer ℤ) [4] = [9] := by
  have h1 : hasStepLogic (HeadLayer.relu (α := ℤ)) = false := by decide
  have h3 : headStepOpt (HeadLayer.conv1x1 [[2]] [1] : HeadLayer ℤ) [4] =
      some [9] := by decide
  exact ⟨h1, (head_dispatch (α := ℤ)).1 HeadLayer.relu h1 [-3, 2], h3,
    (head_dispatch (α := ℤ)).2.1 (HeadLayer.conv1x1 [[2]] [1]) [4] [9] h3⟩

theorem default_seed_witness :
    resolveInitial 256 (none : Option (List (List ℤ))) =
      .ok (oneHot 256 127) ∧
    (oneHot 256 127 : Frame ℤ).getD 127 0 = 1 ∧
    resolveInitial 256 (some ((oneHot 256 3 : Frame ℤ).map (fun a => [a]))) =
      .ok (oneHot 256 3) := by
  have hlen : ((oneHot 256 3 : Frame ℤ)).length = 256 := by simp [oneHot]
  exact ⟨(default_seed 256 (by decide)).1,
    (default_seed 256 (by decide)).2.2.1,
    (default_seed 256 (by decide)).2.2.2.2 (oneHot 256 3) hlen⟩

theorem batch_restriction_witness :
    (incrementalPlan 256 (some 10) (some (4, 256, 7)) (some 3)).B = 4 ∧
    (incrementalPlan 256 (some 10) (some (4, 256, 7)) (some 3)).gShape =
      some (4, 10, 3) ∧
    ((4, 10, 3) : ℕ × ℕ × ℕ).1 =
      (incrementalPlan 256 (some 10) (some (4, 256, 7)) (some 3)).B := by
  have hg : (incrementalPlan 256 (some 10) (some (4, 256, 7)) (some 3)).gShape =
      some (4, 10, 3) := by decide
  exact ⟨by decide, hg,
    (batch_restriction 256 (some 10) (some 3)).2.2.2.1 (some (4, 256, 7))
      (4, 10, 3) hg⟩

end WN
